import Mathlib

/-!
Verification of the splitFilePlugin chunked file-transfer core
(ChunkManager.ts, DownloadManager.ts, UploadManager.ts and the repair
path of DownloadRow.tsx / the extended DownloadManager).

The TypeScript source is shallowly embedded: byte buffers become
`List Nat`, JavaScript objects become structures, the mutable static
registries become explicit state values threaded through the operations,
and asynchronous code is embedded at its sequential (concurrency = 1)
schedule, which the source supports via its `parallel*` settings.
SHA-256 digest comparison of two in-memory buffers is modelled as byte
equality (the digests are compared only for equality, and the hash is
collision-free for the purposes of this development); where a named hash
*value* flows through the program (checksum metadata strings) the hash
function is kept abstract as a parameter `hash : List Nat → String`.
-/

namespace FileSplitter

/-! ## JSON values and `isValidChunk` (ChunkManager.ts lines 289-299)

A JSON value as produced by `JSON.parse`.  Numbers are rationals
(JavaScript numbers are not necessarily integers). -/

inductive JValue where
  | null : JValue
  | bool : Bool → JValue
  | num : ℚ → JValue
  | str : String → JValue
  | arr : List JValue → JValue
  | obj : List (String × JValue) → JValue

/-- JavaScript property access `v[k]`: `none` models `undefined`.
`JSON.parse` keeps the last duplicate key, so lookup scans from the right. -/
def jGet (v : JValue) (k : String) : Option JValue :=
  match v with
  | .obj fields => (fields.reverse.find? (fun p => p.1 = k)).map Prod.snd
  | _ => none

/-- Test `typeof v === "object"` (true for objects, arrays and null). -/
def typeofIsObject : JValue → Bool
  | .null => true
  | .obj _ => true
  | .arr _ => true
  | _ => false

def jIsNum (v : Option JValue) : Bool :=
  match v with
  | some (.num _) => true
  | _ => false

/-- Compare the already-extracted `type` field with the literal discriminator. -/
def jIsDiscriminator (v : Option JValue) : Bool :=
  match v with
  | some (.str s) => s = "FileSplitterChunk"
  | _ => false

def jIsStr (v : Option JValue) : Bool :=
  match v with
  | some (.str _) => true
  | _ => false

/-- Definition `isValidChunk` (ChunkManager.ts lines 289-299): the acceptance test the
scanner applies to a parsed message body.  Property access on `null`
throws in JavaScript; the surrounding `try/catch` of the scanner turns that
into rejection, which is what `jGet .null _ = none` yields here, so the
observable accept/reject behaviour is preserved. -/
def isValidChunk (v : JValue) : Bool :=
  typeofIsObject v &&
  jIsDiscriminator (jGet v "type") &&
  jIsNum (jGet v "index") &&
  jIsNum (jGet v "total") &&
  jIsStr (jGet v "originalName") &&
  jIsNum (jGet v "originalSize") &&
  jIsNum (jGet v "timestamp")

/-- Modelled from the spec: the wire format (§6) required fields at the
wire-format types — integer `index >= 0`, integer `total > 0`, string
`originalName`, integer `originalSize`, integer `timestamp`, exact
discriminator.  Used only to compare the validation contract of the spec
with `isValidChunk` from the source. -/
def specWireValid (v : JValue) : Bool :=
  match v with
  | .obj _ =>
    jIsDiscriminator (jGet v "type") &&
    (match jGet v "index" with
     | some (.num q) => q.den == 1 && 0 ≤ q.num
     | _ => false) &&
    (match jGet v "total" with
     | some (.num q) => q.den == 1 && 0 < q.num
     | _ => false) &&
    jIsStr (jGet v "originalName") &&
    (match jGet v "originalSize" with
     | some (.num q) => q.den == 1
     | _ => false) &&
    (match jGet v "timestamp" with
     | some (.num q) => q.den == 1
     | _ => false)
  | _ => false

/-! ## Checksum engine (ChunkManager.ts lines 47-71) -/

/-- Definition `calculateChecksum`: the input is `some bytes` when readable and `none`
when reading it throws; the `catch` branch returns the sentinel string
`"error"` instead of rethrowing.  The tiled SHA-256 hash-of-hashes of the
successful branch is abstracted as `hash`. -/
def calculateChecksum (hash : List Nat → String) (input : Option (List Nat)) : String :=
  match input with
  | some bytes => hash bytes
  | none => "error"

inductive CkResult where
  | pass | fail | skipped
deriving DecidableEq

/-- Checksum consumption in the download engine (DownloadManager.ts lines
246-255): `stored` is `session.chunks[0].checksum` (with JavaScript
truthiness: the empty string counts as absent), `calculated` the value
returned by `calculateChecksum` on the merged blob. -/
def checksumDecision (stored : Option String) (calculated : String) : CkResult :=
  match stored with
  | some s => if s ≠ "" then (if calculated = s then .pass else .fail) else .skipped
  | none => .skipped

/-- Checksum production in the upload engine (UploadManager.ts lines
253-259 and 292-301): `calculateChecksum` never throws, so the `catch`
around it is dead and whatever string it returns — the sentinel included —
is attached as the `checksum` field of the metadata of every chunk. -/
def uploadFileChecksumField (hash : List Nat → String) (fileInput : Option (List Nat)) :
    Option String :=
  some (calculateChecksum hash fileInput)

/-! ## Repair chunk-size inference
(unnamed DownloadManager `repairSession` lines 97-110, and the identical
DownloadRow.tsx `handleRepair` lines 382-394).

Chunk sizes are rationals since the candidate ladder contains non-integer
byte counts (9.9 MiB etc.); `Math.ceil(file.size / s)` is the exact
rational ceiling for these operands. -/

def repairCandidatesMB : List ℚ :=
  [8, 9.5, 9.9, 10, 24, 24.9, 25, 49, 50, 99, 100, 499, 500]

/-- Size-inference step of `repairSession`.  `chunkIndices` are the
indices of the stored chunks of the session at verification time and
`badIndices` the list returned by verification; the `filter` models the
removal loop that precedes this step (it mutates the same session
object, leaving only chunks at non-bad indices).  `validChunk` is the
first remaining chunk not flagged bad; the candidate ladder is scanned
only when it exists, and the first candidate satisfying
`ceil(fileSize / c) == totalChunks` wins; otherwise the default 9.5 MiB
is used. -/
def repairDetectedChunkSize (chunkIndices badIndices : List ℕ)
    (fileSize totalChunks : ℕ) : ℚ :=
  let remaining := chunkIndices.filter (fun i => ¬ badIndices.contains i)
  let validChunk := remaining.find? (fun i => ¬ badIndices.contains i)
  let fromLadder : Option ℚ :=
    match validChunk with
    | some _ =>
      (repairCandidatesMB.map (fun m => m * 1048576)).find?
        (fun s => ⌈(fileSize : ℚ) / s⌉ = (totalChunks : ℤ))
    | none => none
  match fromLadder with
  | some s => s
  | none => 9.5 * 1048576

/-! ## Chunk registry (ChunkManager.ts lines 73-171)

`ChunkManager.storage` is a JavaScript object keyed by
`chunk.timestamp.toString()`; it is embedded as an association list with
numeric keys (key insertion order is preserved, matching object key
order for the operations used here). -/

structure UploaderInfo where
  id : String
  username : String
deriving DecidableEq

structure StoredFileChunk where
  index : ℕ
  total : ℕ
  originalName : String
  originalSize : ℕ
  timestamp : ℕ
  checksum : Option String
  chunkChecksum : Option String
  url : String
  messageId : Option String
deriving DecidableEq

structure Session where
  id : ℕ
  name : String
  size : ℕ
  totalChunks : ℕ
  channelId : String
  uploader : UploaderInfo
  chunks : List StoredFileChunk
  lastUpdated : ℕ
  isComplete : Bool
deriving DecidableEq

abbrev Storage := List (ℕ × Session)

/-- Lookup `this.storage[key]` (`getSession` is `storage[id] || null`). -/
def lookupSession (st : Storage) (key : ℕ) : Option Session :=
  (st.find? (fun p => p.1 = key)).map Prod.snd

/-- The fresh session `addChunk` creates when the key is absent
(ChunkManager.ts lines 89-101). -/
def freshSession (chunk : StoredFileChunk) (channelId : String)
    (uploader : UploaderInfo) (now : ℕ) : Session :=
  { id := chunk.timestamp
    name := chunk.originalName
    size := chunk.originalSize
    totalChunks := chunk.total
    channelId := channelId
    uploader := uploader
    chunks := []
    lastUpdated := now
    isComplete := false }

/-- The per-session body of `addChunk` (ChunkManager.ts lines 103-112):
push unless the index is already present, then recompute `isComplete`
from the new length. -/
def addChunkToSession (session : Session) (chunk : StoredFileChunk) (now : ℕ) : Session :=
  if session.chunks.any (fun c => decide (c.index = chunk.index)) then session
  else
    { session with
      chunks := session.chunks ++ [chunk]
      lastUpdated := now
      isComplete := (session.chunks ++ [chunk]).length = session.totalChunks }

/-- Operation `ChunkManager.addChunk` (ChunkManager.ts lines 86-112). -/
def addChunk (st : Storage) (chunk : StoredFileChunk) (channelId : String)
    (uploader : UploaderInfo) (now : ℕ) : Storage :=
  let key := chunk.timestamp
  let st' : Storage :=
    if lookupSession st key = none then
      st ++ [(key, freshSession chunk channelId uploader now)]
    else st
  st'.map (fun p => if p.1 = key then (p.1, addChunkToSession p.2 chunk now) else p)

/-- Operation `ChunkManager.removeChunk` (ChunkManager.ts lines 114-132): drop every
chunk carried by the deleted message; a session whose chunk list shrank
becomes incomplete and is deleted entirely when it shrank to empty. -/
def removeChunkEntry (messageId : String) (p : ℕ × Session) : Option (ℕ × Session) :=
  let session := p.2
  let newChunks := session.chunks.filter (fun c => decide (c.messageId ≠ some messageId))
  if newChunks.length = session.chunks.length then some p
  else if newChunks.length = 0 then none
  else some (p.1, { session with chunks := newChunks, isComplete := false })

def removeChunk (st : Storage) (messageId : String) : Storage :=
  st.filterMap (removeChunkEntry messageId)

/-- Operation `ChunkManager.removeChunkByIndex` (ChunkManager.ts lines 134-145). -/
def removeIndexEntry (sessionId index : ℕ) (p : ℕ × Session) : ℕ × Session :=
  if p.1 = sessionId then
    let session := p.2
    let newChunks := session.chunks.filter (fun c => decide (c.index ≠ index))
    if newChunks.length = session.chunks.length then p
    else (p.1, { session with chunks := newChunks, isComplete := false })
  else p

def removeChunkByIndex (st : Storage) (sessionId : ℕ) (index : ℕ) : Storage :=
  match lookupSession st sessionId with
  | none => st
  | some _ => st.map (removeIndexEntry sessionId index)

/-- Operation `ChunkManager.cleanOldChunks` (ChunkManager.ts lines 160-171); the
timeout constant is 15 minutes in milliseconds. -/
def CHUNK_TIMEOUT : ℕ := 15 * 60 * 1000

def cleanOldChunks (st : Storage) (now : ℕ) : Storage :=
  st.filter (fun p => decide (¬ CHUNK_TIMEOUT < now - p.2.lastUpdated))

/-- Registry states reachable by the public mutating operations from the
initial empty storage.  The two hypotheses on `add` are the ChunkRecord
data-model invariant `index < total` of the spec, stated both for the
record itself and against the totalChunks of an already-existing session
for the same key (the wire format shares `total` across the chunks of
one session). -/
inductive Reachable : Storage → Prop where
  | empty : Reachable []
  | add {st : Storage} (chunk : StoredFileChunk) (channelId : String)
      (uploader : UploaderInfo) (now : ℕ) :
      Reachable st →
      chunk.index < chunk.total →
      (∀ s, lookupSession st chunk.timestamp = some s → chunk.index < s.totalChunks) →
      Reachable (addChunk st chunk channelId uploader now)
  | remove {st : Storage} (messageId : String) :
      Reachable st → Reachable (removeChunk st messageId)
  | removeByIndex {st : Storage} (sessionId index : ℕ) :
      Reachable st → Reachable (removeChunkByIndex st sessionId index)
  | sweep {st : Storage} (now : ℕ) :
      Reachable st → Reachable (cleanOldChunks st now)

/-- The per-session well-formedness the registry maintains. -/
def SessionInv (s : Session) : Prop :=
  (s.chunks.map (fun c => c.index)).Nodup ∧
  (∀ c ∈ s.chunks, c.index < s.totalChunks) ∧
  (s.isComplete = true ↔ s.chunks.length = s.totalChunks)

def StorageInv (st : Storage) : Prop :=
  (st.map Prod.fst).Nodup ∧ ∀ p ∈ st, SessionInv p.2

/-! ## Download engine (DownloadManager.ts lines 6-268)

The in-memory byte cache `state.blobs : Map<number, Blob>` becomes an
association list with `Map.set` semantics; blobs become `List ℕ`. -/

abbrev BlobCache := List (ℕ × List ℕ)

/-- Lookup, as `Map.get`. -/
def getBlob (cache : BlobCache) (i : ℕ) : Option (List ℕ) :=
  (cache.find? (fun p => p.1 = i)).map Prod.snd

/-- Insertion, as `Map.set`: overwrite an existing key, else append. -/
def setBlob (cache : BlobCache) (i : ℕ) (b : List ℕ) : BlobCache :=
  if cache.any (fun p => decide (p.1 = i)) then
    cache.map (fun p => if p.1 = i then (i, b) else p)
  else cache ++ [(i, b)]

/-- Size, as `Map.size`. -/
def blobsSize (cache : BlobCache) : ℕ := cache.length

/-- The byte cache produced by a run of the chunk-fetch workers: each
completed worker performs one `state.blobs.set(chunk.index, blob)`, in
whatever order the workers happened to finish. -/
def buildCache (inserts : List (ℕ × List ℕ)) : BlobCache :=
  inserts.foldl (fun cache p => setBlob cache p.1 p.2) []

/-- The merge step (DownloadManager.ts lines 237-242): gather
`blobs.get(i)` for `i = 0 .. totalChunks-1` and concatenate
(`new Blob(orderedBlobs)`).  The merge only runs behind the
`blobs.size == totalChunks` guard, under which every lookup is present;
a missing lookup contributes nothing. -/
def mergeBlobs (cache : BlobCache) (totalChunks : ℕ) : List ℕ :=
  (((List.range totalChunks).map (fun i => (getBlob cache i).getD [])).flatten)

inductive DStatus where
  | pending | downloading | merging | paused | completed | error
deriving DecidableEq

/-- State `DownloadState` plus the dynamically attached `state.blobs` cache.
The `AbortController` is embedded as the `aborted` flag of the current
attempt. -/
structure DlState where
  blobs : BlobCache
  chunksDownloaded : List ℕ
  bytesDownloaded : ℕ
  status : DStatus
  errorMsg : Option String
  aborted : Bool
  isPaused : Bool
  fileBlob : Option (List ℕ)
  checksumResult : Option CkResult
deriving DecidableEq

/-- The body of a successful `processChunk` (DownloadManager.ts lines
173-188): cache the blob, record the index, add its size.  The
speed/etr fields depend on wall-clock time and are not modelled. -/
def recordChunk (dl : DlState) (index : ℕ) (bytes : List ℕ) : DlState :=
  { dl with
    blobs := setBlob dl.blobs index bytes
    chunksDownloaded := dl.chunksDownloaded ++ [index]
    bytesDownloaded := dl.bytesDownloaded + bytes.length }

/-- The fetch half of `downloadLoop` (DownloadManager.ts lines 193-224)
at its sequential schedule (`parallelDownloading = false`, concurrency 1:
each admitted `processChunk` settles before the driver loop re-checks
its pause/abort guard).  A `fetcher` result of `none` models a fetch
returning no data: the rejection handler of the worker records the error and
aborts the controller of the whole download.  The returned flag is true
when the loop exited through its in-loop pause/abort `return` (which
skips the merge and sets status `paused`) rather than by exhausting the
work list. -/
def fetchPhase (fetcher : String → Option (List ℕ)) :
    List StoredFileChunk → DlState → DlState × Bool
  | [], dl => (dl, false)
  | chunk :: rest, dl =>
    if dl.isPaused || dl.aborted then ({ dl with status := .paused }, true)
    else
      match fetcher chunk.url with
      | none =>
        fetchPhase fetcher rest
          { dl with
            errorMsg := some ("Chunk " ++ toString chunk.index ++ " failed")
            aborted := true }
      | some bytes => fetchPhase fetcher rest (recordChunk dl chunk.index bytes)

/-- The merge/checksum tail of `downloadLoop` (DownloadManager.ts lines
228-267), reached only when the fetch loop ran to completion without the
controller having been aborted.  The thrown "Download incomplete" error
lands in the surrounding catch, which (not aborted here) marks the state
`error`. -/
def mergePhase (hash : List ℕ → String) (session : Session) (dl : DlState) : DlState :=
  let dl := { dl with status := .merging }
  if blobsSize dl.blobs ≠ session.totalChunks then
    { dl with
      status := .error
      errorMsg := some ("Download incomplete: " ++ toString (blobsSize dl.blobs)
        ++ "/" ++ toString session.totalChunks) }
  else
    let merged := mergeBlobs dl.blobs session.totalChunks
    match session.chunks.head? with
    | none =>
      { dl with
        fileBlob := some merged
        status := .error
        errorMsg := some "Cannot read checksum of undefined" }
    | some c0 =>
      { dl with
        fileBlob := some merged
        checksumResult :=
          some (checksumDecision c0.checksum (calculateChecksum hash (some merged)))
        status := .completed }

/-- Operation `DownloadManager.downloadLoop` (DownloadManager.ts lines 151-268):
queue the chunks of the session by ascending index, skipping indices already
cached; run the fetch loop; then either return early (pause/abort inside
the loop), return silently when the controller was aborted (skipping the
merge), or merge. -/
def pendingChunks (session : Session) (dl : DlState) : List StoredFileChunk :=
  (session.chunks.mergeSort (fun a b => a.index ≤ b.index)).filter
    (fun c => (getBlob dl.blobs c.index).isNone)

def downloadLoop (fetcher : String → Option (List ℕ)) (hash : List ℕ → String)
    (session : Session) (dl0 : DlState) : DlState :=
  match fetchPhase fetcher (pendingChunks session dl0) dl0 with
  | (dl, true) => dl
  | (dl, false) => if dl.aborted then dl else mergePhase hash session dl

/-! ## Upload engine (UploadManager.ts) -/

inductive UStatus where
  | pending | uploading | paused | completed | error
deriving DecidableEq

/-- The `File` handle as the upload engine consults it: only `name` and
`size` are read by the resume guard. -/
structure UpFile where
  name : String
  size : ℕ
deriving DecidableEq

/-- State `UploadSession` (UploadManager.ts lines 9-27).  The
`AbortController` is embedded as the `aborted` flag of the current
attempt; wall-clock fields (`startTime`, `speed`, `etr`) are omitted. -/
structure UploadSession where
  id : ℕ
  file : Option UpFile
  name : String
  size : ℕ
  status : UStatus
  chunkSize : ℕ
  channelId : String
  totalChunks : ℕ
  completedIndices : Finset ℕ
  bytesUploaded : ℕ
  errorMsg : Option String
  aborted : Bool
  isPaused : Bool
deriving DecidableEq

abbrev UploadSessions := List (ℕ × UploadSession)

def lookupUpload (sessions : UploadSessions) (id : ℕ) : Option UploadSession :=
  (sessions.find? (fun p => p.1 = id)).map Prod.snd

def setUpload (sessions : UploadSessions) (id : ℕ) (s : UploadSession) : UploadSessions :=
  sessions.map (fun p => if p.1 = id then (id, s) else p)

/-- How each call of `resumeUpload` returned. -/
inductive ResumeOutcome where
  | notFound
  /-- Failure toast: File mismatch, select the original file. -/
  | mismatchError
  /-- Failure toast: missing file object. -/
  | missingFileError
  /-- Early return on `status === "uploading"`. -/
  | alreadyUploading
  /-- Fell through to `processUpload(session)`. -/
  | started
deriving DecidableEq

/-- Operation `UploadManager.resumeUpload` (UploadManager.ts lines 177-202).  The
supplied-file guard runs only inside the `if (!session.file)` branch; a
session that already holds a file handle ignores the argument.  When the
status check passes, the session is flipped to `pending` with a fresh
controller and handed to `processUpload`. -/
def resumeUpload (sessions : UploadSessions) (id : ℕ) (file : Option UpFile) :
    UploadSessions × ResumeOutcome :=
  match lookupUpload sessions id with
  | none => (sessions, .notFound)
  | some session =>
    let attach : UploadSession ⊕ ResumeOutcome :=
      match session.file with
      | none =>
        match file with
        | some f =>
          if f.name ≠ session.name ∨ f.size ≠ session.size then .inr .mismatchError
          else .inl { session with file := some f }
        | none => .inr .missingFileError
      | some _ => .inl session
    match attach with
    | .inr outcome => (sessions, outcome)
    | .inl s1 =>
      if s1.status = .uploading then (setUpload sessions id s1, .alreadyUploading)
      else
        (setUpload sessions id
          { s1 with isPaused := false, status := .pending, aborted := false }, .started)

/-- Chunk-size computation of `startUpload` (UploadManager.ts line 87):
`Math.round(chunkSizeMB * 1024 * 1024)`, with `Math.round` = round half
up, which is `round` on positive rationals. -/
def startChunkSize (chunkSizeMB : ℚ) : ℤ := round (chunkSizeMB * 1048576)

/-- Chunk-count computation of `startUpload` (UploadManager.ts line 88):
`Math.ceil(file.size / chunkSize)`. -/
def startTotalChunks (size chunkSize : ℕ) : ℕ :=
  (⌈(size : ℚ) / (chunkSize : ℚ)⌉).toNat

/-- The per-index byte count `updateProgress` assigns (UploadManager.ts
lines 226-230): the final index gets `size % chunkSize || chunkSize`
(JavaScript `||`: a zero remainder falls back to the full chunk size),
every other index the full `chunkSize`. -/
def chunkUploadBytes (size chunkSize totalChunks idx : ℕ) : ℕ :=
  if idx = totalChunks - 1 then
    (if size % chunkSize = 0 then chunkSize else size % chunkSize)
  else chunkSize

/-- Recomputed `bytesUploaded` of `updateProgress` (UploadManager.ts lines
224-231): the sum of the assigned byte counts over `completedIndices`. -/
def updateProgressBytes (size chunkSize totalChunks : ℕ)
    (completedIndices : Finset ℕ) : ℕ :=
  ∑ idx ∈ completedIndices, chunkUploadBytes size chunkSize totalChunks idx

/-! ## Verification (ChunkManager.verifySessionAgainstFile, lines 177-286)

The SHA-256 digests of remote and local slice are compared only for
equality, so the comparison is modelled directly as byte equality. -/

/-- The body of the `for (let i = 0; ...)` loop, over the remaining
expected indices, threading the mutable `chunkSize` local (assigned only
at `i === 0` from the fetched length).  A `fetcher` result of `none`
covers both a thrown fetch and an empty response — either lands in the
`catch`, which flags the index bad. -/
def verifyFrom (fetcher : String → Option (List ℕ)) (chunks : List StoredFileChunk)
    (file : List ℕ) : List ℕ → ℕ → List ℕ
  | [], _ => []
  | i :: rest, chunkSize =>
    match chunks.find? (fun c => decide (c.index = i)) with
    | none => i :: verifyFrom fetcher chunks file rest chunkSize
    | some meta =>
      match fetcher meta.url with
      | none => i :: verifyFrom fetcher chunks file rest chunkSize
      | some remote =>
        let chunkSize' := if i = 0 ∧ chunkSize = 0 then remote.length else chunkSize
        let start := i * chunkSize'
        let endPos := min (start + remote.length) file.length
        let localData := (file.drop start).take (endPos - start)
        if remote.length ≠ localData.length then
          i :: verifyFrom fetcher chunks file rest chunkSize'
        else if remote ≠ localData then
          i :: verifyFrom fetcher chunks file rest chunkSize'
        else verifyFrom fetcher chunks file rest chunkSize'

/-- Operation `ChunkManager.verifySessionAgainstFile`: sort the stored chunks by
index, return `[]` immediately when none are stored, else scan every
expected index with `chunkSize` initialised to 0. -/
def verifySessionAgainstFile (fetcher : String → Option (List ℕ))
    (session : Session) (file : List ℕ) : List ℕ :=
  let chunks := session.chunks.mergeSort (fun a b => a.index ≤ b.index)
  if chunks.length = 0 then []
  else verifyFrom fetcher chunks file (List.range session.totalChunks) 0

/-- Failure condition of one verification iteration in the degenerate
regime where the nominal chunk size is (and stays) zero: the slice
offset is `j * 0 = 0`, so the fetched bytes are compared against the
initial bytes of the reference file.  Used to characterise
`verifySessionAgainstFile` when no record at index 0 exists. -/
def badAtOffsetZero (fetcher : String → Option (List ℕ))
    (chunks : List StoredFileChunk) (file : List ℕ) (j : ℕ) : Bool :=
  match chunks.find? (fun c => decide (c.index = j)) with
  | none => true
  | some meta =>
    match fetcher meta.url with
    | none => true
    | some remote =>
      ¬ (remote.length ≤ file.length ∧ remote = file.take remote.length)

/-! ## Concrete instances used by witnesses and counterexamples -/

/-- Payload accepted by `isValidChunk` but outside the wire format of the
spec: JSON number fields need not be integers, non-negative or positive
to pass the JavaScript `typeof` checks. -/
def c8Payload : JValue :=
  .obj [("type", .str "FileSplitterChunk"), ("index", .num (-1)), ("total", .num 1),
        ("originalName", .str "a"), ("originalSize", .num 5), ("timestamp", .num 3)]

/-- Upload session that already holds its file handle. -/
def c6Session : UploadSession :=
  { id := 1, file := some ⟨"a.bin", 10⟩, name := "a.bin", size := 10,
    status := .paused, chunkSize := 5, channelId := "chan", totalChunks := 2,
    completedIndices := ∅, bytesUploaded := 5, errorMsg := none,
    aborted := true, isPaused := true }

/-- Upload session restored after a restart: no file handle attached. -/
def c6SessionNoFile : UploadSession :=
  { id := 1, file := none, name := "a.bin", size := 10,
    status := .paused, chunkSize := 5, channelId := "chan", totalChunks := 2,
    completedIndices := ∅, bytesUploaded := 5, errorMsg := none,
    aborted := true, isPaused := true }

/-- Stored chunk at index 1 whose bytes sit at offset 2 of the reference
file; there is no record at index 0. -/
def c10Chunk : StoredFileChunk :=
  { index := 1, total := 2, originalName := "f", originalSize := 4, timestamp := 9,
    checksum := none, chunkChecksum := none, url := "u1", messageId := none }

def c10Session : Session :=
  { id := 9, name := "f", size := 4, totalChunks := 2, channelId := "ch",
    uploader := ⟨"u", "n"⟩, chunks := [c10Chunk], lastUpdated := 0, isComplete := false }

def c10Fetcher : String → Option (List ℕ) :=
  fun u => if u = "u1" then some [2, 3] else none

/-- Single well-formed chunk record (index 0 of 1) for registry runs. -/
def c2Chunk : StoredFileChunk :=
  { index := 0, total := 1, originalName := "a", originalSize := 3, timestamp := 7,
    checksum := none, chunkChecksum := none, url := "u", messageId := none }

def c2Uploader : UploaderInfo := ⟨"id", "name"⟩

def c2Storage : Storage := addChunk [] c2Chunk "chan" c2Uploader 5

def c2Session : Session :=
  addChunkToSession (freshSession c2Chunk "chan" c2Uploader 5) c2Chunk 5

/-- Download session with two chunks; the fetch for chunk 0 returns no
data. -/
def c4Chunk0 : StoredFileChunk :=
  { index := 0, total := 2, originalName := "f", originalSize := 8, timestamp := 11,
    checksum := none, chunkChecksum := none, url := "v0", messageId := none }

def c4Chunk1 : StoredFileChunk :=
  { index := 1, total := 2, originalName := "f", originalSize := 8, timestamp := 11,
    checksum := none, chunkChecksum := none, url := "v1", messageId := none }

def c4Session : Session :=
  { id := 11, name := "f", size := 8, totalChunks := 2, channelId := "ch",
    uploader := ⟨"u", "n"⟩, chunks := [c4Chunk0, c4Chunk1], lastUpdated := 0,
    isComplete := true }

def c4Fetcher : String → Option (List ℕ) :=
  fun u => if u = "v1" then some [9, 9, 9, 9] else none

def c4Hash : List ℕ → String := fun _ => "h"

/-- Fresh DownloadState as `startDownload` hands it to the loop: status
just set to downloading, nothing cached, fresh controller. -/
def dlInit : DlState :=
  { blobs := [], chunksDownloaded := [], bytesDownloaded := 0,
    status := .downloading, errorMsg := none, aborted := false,
    isPaused := false, fileBlob := none, checksumResult := none }

/-! ## Helper lemmas -/

theorem contains_eq_decide_mem (l : List ℕ) (a : ℕ) : l.contains a = decide (a ∈ l) := by
  simp [List.contains]

theorem jIsNum_iff (x : Option JValue) : jIsNum x = true ↔ ∃ q, x = some (JValue.num q) := by
  cases x with
  | none => simp [jIsNum]
  | some v => cases v <;> simp [jIsNum]

theorem jIsStr_iff (x : Option JValue) : jIsStr x = true ↔ ∃ s, x = some (JValue.str s) := by
  cases x with
  | none => simp [jIsStr]
  | some v => cases v <;> simp [jIsStr]

theorem jIsDiscriminator_iff (x : Option JValue) :
    jIsDiscriminator x = true ↔ x = some (JValue.str "FileSplitterChunk") := by
  cases x with
  | none => simp [jIsDiscriminator]
  | some v => cases v <;> simp [jIsDiscriminator]

/-! ## Claim theorems -/

/-- Claim C5, counterexample: a checksum computation failing on an
unreadable input yields the sentinel `"error"`, and the download
checksum consumer then records a positive mismatch (`fail`), not
`skipped`. -/
theorem c5_sentinel_counterexample :
    calculateChecksum (fun _ => "deadbeef") none = "error" ∧
    checksumDecision (some "abc123") (calculateChecksum (fun _ => "deadbeef") none) =
      CkResult.fail ∧
    CkResult.fail ≠ CkResult.skipped := by
  refine ⟨rfl, by decide, by decide⟩

/-- Claim C5, amended: `calculateChecksum` returns the sentinel `"error"`
instead of throwing, but consumers do not special-case the sentinel: the
download step records `skipped` only when the stored metadata carries no
(or an empty) checksum and otherwise compares strings — so a sentinel on
either side of the comparison yields `fail` — and the upload step
attaches whatever `calculateChecksum` returned, the sentinel included,
as the checksum metadata. -/
theorem c5_sentinel_behaviour (hash : List ℕ → String) :
    calculateChecksum hash none = "error" ∧
    uploadFileChecksumField hash none = some "error" ∧
    (∀ c, checksumDecision none c = CkResult.skipped) ∧
    (∀ s c, checksumDecision (some s) c =
      if s = "" then CkResult.skipped
      else if c = s then CkResult.pass else CkResult.fail) := by
  refine ⟨rfl, rfl, fun c => rfl, fun s c => ?_⟩
  by_cases hs : s = "" <;> simp [checksumDecision, hs]

/-- Claim C8, counterexample: a JSON body with the exact discriminator
whose `index` is the (non-wire-format) number `-1` is accepted by
`isValidChunk`, although the wire format requires an integer
`index >= 0`. -/
theorem c8_validation_counterexample :
    isValidChunk c8Payload = true ∧ specWireValid c8Payload = false := by
  decide

/-- Claim C8, amended: a message body is accepted as chunk metadata iff it
parses as a JSON object carrying the exact discriminator and the five
required fields at the JavaScript `typeof` level — `index`, `total`,
`originalSize` and `timestamp` any JSON numbers (integrality,
non-negativity of `index` and positivity of `total` are not checked) and
`originalName` any string; every other body is silently ignored. -/
theorem c8_accept_characterisation (v : JValue) :
    isValidChunk v = true ↔
      ∃ fields, v = JValue.obj fields ∧
        jGet v "type" = some (JValue.str "FileSplitterChunk") ∧
        (∃ q, jGet v "index" = some (JValue.num q)) ∧
        (∃ q, jGet v "total" = some (JValue.num q)) ∧
        (∃ s, jGet v "originalName" = some (JValue.str s)) ∧
        (∃ q, jGet v "originalSize" = some (JValue.num q)) ∧
        (∃ q, jGet v "timestamp" = some (JValue.num q)) := by
  cases v with
  | obj fields =>
    simp only [isValidChunk, typeofIsObject, Bool.true_and, Bool.and_eq_true,
      jIsNum_iff, jIsStr_iff, jIsDiscriminator_iff]
    constructor
    · rintro ⟨⟨⟨⟨⟨h1, h2⟩, h3⟩, h4⟩, h5⟩, h6⟩
      exact ⟨fields, rfl, h1, h2, h3, h4, h5, h6⟩
    · rintro ⟨f, -, h1, h2, h3, h4, h5, h6⟩
      exact ⟨⟨⟨⟨⟨h1, h2⟩, h3⟩, h4⟩, h5⟩, h6⟩
  | null => simp [isValidChunk, jIsDiscriminator, jGet]
  | bool b => simp [isValidChunk, typeofIsObject]
  | num q => simp [isValidChunk, typeofIsObject]
  | str s => simp [isValidChunk, typeofIsObject]
  | arr xs => simp [isValidChunk, jIsDiscriminator, jGet]

/-- Claim C6, counterexample: on a tracked session that already holds a
file handle, `resumeUpload` with a supplied file whose name and size
both differ is not rejected — no mismatch error is reported, the resume
proceeds and the session state is mutated. -/
theorem c6_resume_counterexample :
    (resumeUpload [(1, c6Session)] 1 (some ⟨"b.bin", 99⟩)).2 = ResumeOutcome.started ∧
    (resumeUpload [(1, c6Session)] 1 (some ⟨"b.bin", 99⟩)).2 ≠ ResumeOutcome.mismatchError ∧
    (resumeUpload [(1, c6Session)] 1 (some ⟨"b.bin", 99⟩)).1 ≠ [(1, c6Session)] ∧
    lookupUpload (resumeUpload [(1, c6Session)] 1 (some ⟨"b.bin", 99⟩)).1 1 =
      some { c6Session with isPaused := false, status := .pending, aborted := false } := by
  refine ⟨by decide, by decide, by decide, by decide⟩

/-- Claim C6, amended: only when the tracked session has no attached file
handle is a supplied mismatching file rejected — the mismatch error is
reported and the sessions map is returned unchanged (in particular
`completedIndices`, `status` and the file handle of that session are
untouched); a session that already holds a file handle ignores the
supplied file entirely and resumes. -/
theorem c6_resume_mismatch_rejected (sessions : UploadSessions) (id : ℕ) (f : UpFile)
    (s : UploadSession) (hs : lookupUpload sessions id = some s) (hfile : s.file = none)
    (hmm : f.name ≠ s.name ∨ f.size ≠ s.size) :
    resumeUpload sessions id (some f) = (sessions, ResumeOutcome.mismatchError) := by
  unfold resumeUpload
  rw [hs]
  simp [hfile, hmm]

/-- Claim C6, witness for the amended theorem at a concrete input. -/
theorem c6_resume_mismatch_witness :
    lookupUpload [(1, c6SessionNoFile)] 1 = some c6SessionNoFile ∧
    c6SessionNoFile.file = none ∧
    ((UpFile.mk "b.bin" 99).name ≠ c6SessionNoFile.name ∨
      (UpFile.mk "b.bin" 99).size ≠ c6SessionNoFile.size) ∧
    resumeUpload [(1, c6SessionNoFile)] 1 (some ⟨"b.bin", 99⟩) =
      ([(1, c6SessionNoFile)], ResumeOutcome.mismatchError) :=
  ⟨by decide, rfl, by decide,
    c6_resume_mismatch_rejected [(1, c6SessionNoFile)] 1 ⟨"b.bin", 99⟩ c6SessionNoFile
      (by decide) rfl (by decide)⟩

/-- Claim C7, counterexample: a repair run in which every stored chunk was
flagged bad never scans the candidate ladder: with a 16 MiB file and
`totalChunks = 2` the 8 MiB candidate satisfies
`ceil(fileSize / c) == totalChunks`, yet the default 9.5 MiB is used. -/
theorem c7_ladder_counterexample :
    repairDetectedChunkSize [0, 1] [0, 1] 16777216 2 = 9.5 * 1048576 ∧
    (⌈(16777216 : ℚ) / (8 * 1048576)⌉ = (2 : ℤ)) ∧
    ((9.5 : ℚ) * 1048576 ≠ 8 * 1048576) := by
  refine ⟨by simp [repairDetectedChunkSize], by norm_num, by norm_num⟩

/-- Claim C7, amended: when at least one stored chunk survives the
bad-index removal, the chunk size used to re-slice the reference file is
the first ladder candidate satisfying `ceil(fileSize / c) == totalChunks`
and the default 9.5 MiB when no candidate does; when every stored chunk
was flagged bad, the default is used even if a candidate satisfies the
equation. -/
theorem c7_detected_size_spec (chunkIndices badIndices : List ℕ)
    (fileSize totalChunks : ℕ) :
    repairDetectedChunkSize chunkIndices badIndices fileSize totalChunks =
      if ∃ i ∈ chunkIndices, badIndices.contains i = false then
        (match (repairCandidatesMB.map (fun m => m * 1048576)).find?
            (fun s => ⌈(fileSize : ℚ) / s⌉ = (totalChunks : ℤ)) with
         | some s => s
         | none => 9.5 * 1048576)
      else 9.5 * 1048576 := by
  unfold repairDetectedChunkSize
  by_cases h : ∃ i ∈ chunkIndices, badIndices.contains i = false
  · obtain ⟨i, hi, hbad⟩ := h
    have hni : i ∉ badIndices := by
      simpa [contains_eq_decide_mem] using hbad
    have hmem : i ∈ chunkIndices.filter (fun i => ¬ badIndices.contains i) := by
      rw [List.mem_filter]
      exact ⟨hi, by simp [hni]⟩
    have hfind :
        ((chunkIndices.filter (fun i => ¬ badIndices.contains i)).find?
          (fun i => ¬ badIndices.contains i)).isSome := by
      rw [List.find?_isSome]
      exact ⟨i, hmem, by simp [hni]⟩
    rw [if_pos ⟨i, hi, hbad⟩]
    obtain ⟨j, hj⟩ := Option.isSome_iff_exists.mp hfind
    simp only [hj]
  · have hempty : chunkIndices.filter (fun i => ¬ badIndices.contains i) = [] := by
      rw [List.filter_eq_nil_iff]
      intro a ha
      by_contra hc
      refine h ⟨a, ha, ?_⟩
      simpa using hc
    rw [if_neg h, hempty]
    simp [List.find?]

theorem getBlob_cons_of_eq (q : ℕ × List ℕ) (rest : BlobCache) (i : ℕ) (h : q.1 = i) :
    getBlob (q :: rest) i = some q.2 := by
  unfold getBlob
  rw [List.find?_cons_of_pos _ (by simpa using h)]
  rfl

theorem getBlob_cons_ne (q : ℕ × List ℕ) (rest : BlobCache) (i : ℕ) (h : ¬ q.1 = i) :
    getBlob (q :: rest) i = getBlob rest i := by
  unfold getBlob
  rw [List.find?_cons_of_neg _ (by simpa using h)]

theorem getBlob_map_set (cache : BlobCache) (i : ℕ) (b : List ℕ) :
    getBlob (cache.map (fun p => if p.1 = i then (i, b) else p)) i =
      if cache.any (fun p => decide (p.1 = i)) then some b else none := by
  induction cache with
  | nil => rfl
  | cons q rest ih =>
    simp only [List.map_cons, List.any_cons]
    by_cases hq : q.1 = i
    · rw [if_pos hq, getBlob_cons_of_eq (i, b) _ i rfl]
      simp [hq]
    · rw [if_neg hq, getBlob_cons_ne q _ i hq, ih]
      have hd : decide (q.1 = i) = false := by simp [hq]
      simp only [hd, Bool.false_or]

theorem getBlob_map_set_ne (cache : BlobCache) (i j : ℕ) (b : List ℕ) (h : ¬ j = i) :
    getBlob (cache.map (fun p => if p.1 = i then (i, b) else p)) j = getBlob cache j := by
  induction cache with
  | nil => rfl
  | cons q rest ih =>
    simp only [List.map_cons]
    by_cases hq : q.1 = i
    · have h1 : ¬ ((i, b) : ℕ × List ℕ).1 = j := by
        intro hh
        exact h hh.symm
      have h2 : ¬ q.1 = j := by
        rw [hq]
        intro hh
        exact h hh.symm
      rw [if_pos hq, getBlob_cons_ne (i, b) _ j h1, getBlob_cons_ne q _ j h2, ih]
    · rw [if_neg hq]
      by_cases hqj : q.1 = j
      · rw [getBlob_cons_of_eq q _ j hqj, getBlob_cons_of_eq q _ j hqj]
      · rw [getBlob_cons_ne q _ j hqj, getBlob_cons_ne q _ j hqj, ih]

theorem getBlob_setBlob_self (cache : BlobCache) (i : ℕ) (b : List ℕ) :
    getBlob (setBlob cache i b) i = some b := by
  unfold setBlob
  by_cases h : cache.any (fun p => decide (p.1 = i))
  · rw [if_pos h, getBlob_map_set, if_pos h]
  · rw [if_neg h]
    have hnone : cache.find? (fun p => p.1 = i) = none := by
      rw [List.find?_eq_none]
      intro p hp hc
      exact h (List.any_eq_true.mpr ⟨p, hp, hc⟩)
    unfold getBlob
    rw [List.find?_append, hnone, Option.none_or,
      List.find?_cons_of_pos _ (by simp)]
    rfl

theorem getBlob_setBlob_ne (cache : BlobCache) (i j : ℕ) (b : List ℕ) (h : ¬ j = i) :
    getBlob (setBlob cache i b) j = getBlob cache j := by
  unfold setBlob
  by_cases hc : cache.any (fun p => decide (p.1 = i))
  · rw [if_pos hc]
    exact getBlob_map_set_ne cache i j b h
  · rw [if_neg hc]
    have h1 : ¬ (i, b).1 = j := by
      intro hh
      exact h hh.symm
    unfold getBlob
    rw [List.find?_append, List.find?_cons_of_neg _ (by simpa using h1)]
    simp

theorem getBlob_foldl_not_mem (inserts : List (ℕ × List ℕ)) (c0 : BlobCache) (i : ℕ)
    (h : ∀ p ∈ inserts, ¬ p.1 = i) :
    getBlob (inserts.foldl (fun c p => setBlob c p.1 p.2) c0) i = getBlob c0 i := by
  induction inserts generalizing c0 with
  | nil => rfl
  | cons p rest ih =>
    rw [List.foldl_cons, ih _ (fun q hq => h q (List.mem_cons_of_mem p hq))]
    refine getBlob_setBlob_ne c0 p.1 i p.2 ?_
    intro hh
    exact h p (List.mem_cons_self p rest) hh.symm

theorem getBlob_foldl_of_mem (inserts : List (ℕ × List ℕ)) (c0 : BlobCache)
    (i : ℕ) (b : List ℕ) (hnd : (inserts.map Prod.fst).Nodup)
    (hmem : (i, b) ∈ inserts) :
    getBlob (inserts.foldl (fun c p => setBlob c p.1 p.2) c0) i = some b := by
  induction inserts generalizing c0 with
  | nil => exact absurd hmem (List.not_mem_nil _)
  | cons p rest ih =>
    rw [List.map_cons, List.nodup_cons] at hnd
    rcases List.mem_cons.mp hmem with heq | hrest
    · subst heq
      rw [List.foldl_cons]
      rw [getBlob_foldl_not_mem rest _ i ?_]
      · exact getBlob_setBlob_self c0 i b
      · intro q hq hqi
        have hmm2 : q.1 ∈ rest.map Prod.fst := List.mem_map_of_mem Prod.fst hq
        rw [hqi] at hmm2
        exact hnd.1 hmm2
    · exact ih _ hnd.2 hrest

/-- Claim C1: for a session whose byte cache was filled by chunk-fetch
workers completing in any order — the multiset of `blobs.set` calls
covering each index `i < totalChunks` exactly once with bytes `B i` —
the merge step produces exactly the concatenation
`B 0 ++ B 1 ++ ... ++ B (total-1)` in ascending index order. -/
theorem c1_merge_concat (total : ℕ) (B : ℕ → List ℕ) (inserts : List (ℕ × List ℕ))
    (hperm : inserts.Perm ((List.range total).map (fun i => (i, B i)))) :
    mergeBlobs (buildCache inserts) total = ((List.range total).map B).flatten := by
  unfold mergeBlobs
  congr 1
  apply List.map_congr_left
  intro i hi
  have hkeys : (inserts.map Prod.fst).Perm (List.range total) := by
    have h1 := hperm.map Prod.fst
    have h2 : ((List.range total).map (fun i => (i, B i))).map Prod.fst =
        List.range total := by
      rw [List.map_map]
      have hcomp : (Prod.fst ∘ fun i : ℕ => (i, B i)) = id := rfl
      rw [hcomp, List.map_id]
    rwa [h2] at h1
  have hnd : (inserts.map Prod.fst).Nodup :=
    (List.Perm.nodup_iff hkeys).mpr (List.nodup_range total)
  have hmem : (i, B i) ∈ inserts := by
    rw [List.Perm.mem_iff hperm]
    exact List.mem_map_of_mem _ hi
  rw [buildCache, getBlob_foldl_of_mem inserts [] i (B i) hnd hmem]
  rfl

/-- Claim C1, witness: three chunks inserted in completion order 2, 0, 1
still merge to the index-ordered concatenation. -/
theorem c1_merge_concat_witness :
    ([((2 : ℕ), [2]), (0, [0]), (1, [1])] : List (ℕ × List ℕ)).Perm
        ((List.range 3).map (fun i => (i, [i]))) ∧
    mergeBlobs (buildCache [((2 : ℕ), [2]), (0, [0]), (1, [1])]) 3 =
      ((List.range 3).map (fun i => [i])).flatten :=
  ⟨by decide, c1_merge_concat 3 (fun i => [i]) _ (by decide)⟩

theorem sum_chunkUploadBytes (size cs t0 : ℕ) (hpos : 0 < cs)
    (hub : size ≤ (t0 + 1) * cs) (hlb : t0 * cs < size) :
    ∑ idx ∈ Finset.range (t0 + 1), chunkUploadBytes size cs (t0 + 1) idx = size := by
  rw [Finset.sum_range_succ]
  have hstep : ∀ idx ∈ Finset.range t0, chunkUploadBytes size cs (t0 + 1) idx = cs := by
    intro idx hidx
    rw [Finset.mem_range] at hidx
    unfold chunkUploadBytes
    rw [if_neg (by omega)]
  rw [Finset.sum_congr rfl hstep, Finset.sum_const, Finset.card_range, smul_eq_mul]
  unfold chunkUploadBytes
  rw [if_pos (by omega)]
  by_cases hr : size % cs = 0
  · rw [if_pos hr]
    obtain ⟨q, hq⟩ := Nat.dvd_of_mod_eq_zero hr
    have h1 : t0 < q := by
      by_contra hc
      push_neg at hc
      have hle : cs * q ≤ cs * t0 := Nat.mul_le_mul_left cs hc
      rw [← hq, Nat.mul_comm] at hle
      omega
    have h2 : q ≤ t0 + 1 := by
      by_contra hc
      push_neg at hc
      have hlt : cs * (t0 + 1) < cs * q := (Nat.mul_lt_mul_left hpos).mpr hc
      rw [← hq, Nat.mul_comm] at hlt
      omega
    have hq' : q = t0 + 1 := by omega
    rw [hq, hq']
    ring
  · rw [if_neg hr]
    have hdm : cs * (size / cs) + size % cs = size := Nat.div_add_mod size cs
    have hrlt : size % cs < cs := Nat.mod_lt size hpos
    have h1 : size / cs ≤ t0 := by
      by_contra hc
      push_neg at hc
      have hle : cs * (t0 + 1) ≤ cs * (size / cs) := Nat.mul_le_mul_left cs hc
      rw [Nat.mul_comm cs (t0 + 1)] at hle
      omega
    have h2 : t0 ≤ size / cs := by
      by_contra hc
      push_neg at hc
      have hle : cs * (size / cs + 1) ≤ cs * t0 := Nat.mul_le_mul_left cs hc
      rw [Nat.mul_comm cs t0] at hle
      have : cs * (size / cs + 1) = cs * (size / cs) + cs := by ring
      omega
    have hq' : size / cs = t0 := by omega
    rw [hq'] at hdm
    rw [Nat.mul_comm] at hdm
    omega

theorem startTotalChunks_bounds (size cs : ℕ) (hpos : 0 < cs) (hsz : 0 < size) :
    0 < startTotalChunks size cs ∧
    size ≤ startTotalChunks size cs * cs ∧
    (startTotalChunks size cs - 1) * cs < size := by
  have hcs : (0 : ℚ) < (cs : ℚ) := by exact_mod_cast hpos
  have hx : 0 < (size : ℚ) / (cs : ℚ) := div_pos (by exact_mod_cast hsz) hcs
  have hceil : (0 : ℤ) < ⌈(size : ℚ) / (cs : ℚ)⌉ := Int.ceil_pos.mpr hx
  have hcast : ((startTotalChunks size cs : ℕ) : ℤ) = ⌈(size : ℚ) / (cs : ℚ)⌉ := by
    unfold startTotalChunks
    exact Int.toNat_of_nonneg hceil.le
  have htpos : 0 < startTotalChunks size cs := by omega
  refine ⟨htpos, ?_, ?_⟩
  · have hle : (size : ℚ) / (cs : ℚ) ≤ (⌈(size : ℚ) / (cs : ℚ)⌉ : ℚ) := Int.le_ceil _
    rw [div_le_iff₀ hcs] at hle
    have hle2 : (size : ℚ) ≤ ((startTotalChunks size cs : ℕ) : ℚ) * (cs : ℚ) := by
      rw [show (((startTotalChunks size cs : ℕ) : ℚ)) =
          ((⌈(size : ℚ) / (cs : ℚ)⌉ : ℤ) : ℚ) by exact_mod_cast congrArg Int.cast hcast]
      exact hle
    exact_mod_cast hle2
  · have hlt : (⌈(size : ℚ) / (cs : ℚ)⌉ : ℚ) < (size : ℚ) / (cs : ℚ) + 1 :=
      Int.ceil_lt_add_one _
    have hlt2 : (⌈(size : ℚ) / (cs : ℚ)⌉ : ℚ) - 1 < (size : ℚ) / (cs : ℚ) := by
      linarith
    have hcast2 : (((startTotalChunks size cs - 1 : ℕ)) : ℚ) =
        (⌈(size : ℚ) / (cs : ℚ)⌉ : ℚ) - 1 := by
      have h1 : ((startTotalChunks size cs - 1 : ℕ) : ℤ) =
          ⌈(size : ℚ) / (cs : ℚ)⌉ - 1 := by omega
      exact_mod_cast congrArg Int.cast h1
    rw [← hcast2] at hlt2
    rw [lt_div_iff₀ hcs] at hlt2
    exact_mod_cast hlt2

/-- Claim C9: with `chunkSize = round(chunkSizeMB * 2^20)` and
`totalChunks = ceil(size / chunkSize)` as computed by `startUpload`, the
progress recomputation assigns each completed non-final index the full
`chunkSize` and the final index `size % chunkSize` (or `chunkSize` when
the remainder is zero); consequently, when `completedIndices` covers all
of `[0, totalChunks)`, `bytesUploaded` equals the file size exactly. -/
theorem c9_progress_full_coverage (mB : ℚ) (size cs total : ℕ)
    (_hcs : (startChunkSize mB).toNat = cs) (hpos : 0 < cs)
    (htot : startTotalChunks size cs = total) :
    (∀ idx, idx < total → idx ≠ total - 1 → chunkUploadBytes size cs total idx = cs) ∧
    chunkUploadBytes size cs total (total - 1) =
      (if size % cs = 0 then cs else size % cs) ∧
    updateProgressBytes size cs total (Finset.range total) = size := by
  refine ⟨?_, ?_, ?_⟩
  · intro idx _ hne
    unfold chunkUploadBytes
    rw [if_neg hne]
  · unfold chunkUploadBytes
    rw [if_pos rfl]
  · by_cases hsz : size = 0
    · have htot0 : total = 0 := by
        rw [← htot, hsz]
        unfold startTotalChunks
        norm_num
      subst hsz
      rw [htot0]
      simp [updateProgressBytes]
    · obtain ⟨h1, h2, h3⟩ := startTotalChunks_bounds size cs hpos (Nat.pos_of_ne_zero hsz)
      rw [htot] at h1 h2 h3
      obtain ⟨t0, rfl⟩ : ∃ t0, total = t0 + 1 :=
        ⟨total - 1, (Nat.succ_pred_eq_of_pos h1).symm⟩
      unfold updateProgressBytes
      exact sum_chunkUploadBytes size cs t0 hpos (by simpa using h2) (by simpa using h3)

/-- Claim C9, witness: a 20 MB file at the 9.5 MiB preset gives
`chunkSize = 9961472` and `totalChunks = 3`, whose full coverage sums to
exactly 20000000 bytes. -/
theorem c9_progress_witness :
    (startChunkSize 9.5).toNat = 9961472 ∧ 0 < 9961472 ∧
    startTotalChunks 20000000 9961472 = 3 ∧
    ((∀ idx, idx < 3 → idx ≠ 3 - 1 → chunkUploadBytes 20000000 9961472 3 idx = 9961472) ∧
     chunkUploadBytes 20000000 9961472 3 (3 - 1) =
       (if 20000000 % 9961472 = 0 then 9961472 else 20000000 % 9961472) ∧
     updateProgressBytes 20000000 9961472 3 (Finset.range 3) = 20000000) :=
  ⟨by unfold startChunkSize; rw [round_eq]; norm_num; rfl, by norm_num,
   by
     unfold startTotalChunks
     have h : ⌈((20000000 : ℕ) : ℚ) / ((9961472 : ℕ) : ℚ)⌉ = 3 := by
       rw [Int.ceil_eq_iff]
       constructor <;> norm_num
     rw [h]
     rfl,
   c9_progress_full_coverage 9.5 20000000 9961472 3
     (by unfold startChunkSize; rw [round_eq]; norm_num; rfl) (by norm_num)
     (by
       unfold startTotalChunks
       have h : ⌈((20000000 : ℕ) : ℚ) / ((9961472 : ℕ) : ℚ)⌉ = 3 := by
         rw [Int.ceil_eq_iff]
         constructor <;> norm_num
       rw [h]
       rfl)⟩

theorem verifyFrom_no_zero_chunk (fetcher : String → Option (List ℕ))
    (chunks : List StoredFileChunk) (file : List ℕ)
    (h0 : ∀ c ∈ chunks, ¬ c.index = 0) (idxs : List ℕ) :
    verifyFrom fetcher chunks file idxs 0 =
      idxs.filter (badAtOffsetZero fetcher chunks file) := by
  induction idxs with
  | nil => rfl
  | cons j rest ih =>
    rw [List.filter_cons]
    have hstep : verifyFrom fetcher chunks file (j :: rest) 0 =
        if badAtOffsetZero fetcher chunks file j = true
        then j :: verifyFrom fetcher chunks file rest 0
        else verifyFrom fetcher chunks file rest 0 := by
      cases hfind : chunks.find? (fun c => decide (c.index = j)) with
      | none =>
        have hbad : badAtOffsetZero fetcher chunks file j = true := by
          unfold badAtOffsetZero
          rw [hfind]
        rw [hbad, if_pos rfl]
        simp only [verifyFrom]
        rw [hfind]
      | some meta =>
        have hj0 : ¬ j = 0 := by
          intro hj
          subst hj
          exact h0 meta (List.mem_of_find?_eq_some hfind)
            (by simpa using List.find?_some hfind)
        cases hf : fetcher meta.url with
        | none =>
          have hbad : badAtOffsetZero fetcher chunks file j = true := by
            unfold badAtOffsetZero
            rw [hfind]
            simp [hf]
          rw [hbad, if_pos rfl]
          simp only [verifyFrom]
          rw [hfind]
          simp [hf]
        | some remote =>
          by_cases hle : remote.length ≤ file.length
          · by_cases heq : remote = file.take remote.length
            · have hbad : badAtOffsetZero fetcher chunks file j = false := by
                unfold badAtOffsetZero
                rw [hfind]
                simp only [hf, decide_eq_false_iff_not, Decidable.not_not]
                exact ⟨hle, heq⟩
              rw [hbad, if_neg (by simp)]
              simp only [verifyFrom]
              rw [hfind]
              simp [hf, hj0, min_eq_left hle]
              exact heq
            · have hbad : badAtOffsetZero fetcher chunks file j = true := by
                unfold badAtOffsetZero
                rw [hfind]
                simp [hf, heq]
              rw [hbad, if_pos rfl]
              simp only [verifyFrom]
              rw [hfind]
              simp [hf, hj0, min_eq_left hle]
              exact heq
          · have hgt : file.length < remote.length := Nat.lt_of_not_le hle
            have hbad : badAtOffsetZero fetcher chunks file j = true := by
              unfold badAtOffsetZero
              rw [hfind]
              simp [hf, hle]
            rw [hbad, if_pos rfl]
            simp only [verifyFrom]
            rw [hfind]
            simp [hf, hj0, min_eq_right hgt.le]
            intro hlen
            exact absurd hlen (by omega)
    rw [hstep]
    by_cases hbad : badAtOffsetZero fetcher chunks file j = true
    · rw [if_pos hbad, if_pos hbad, ih]
    · rw [if_neg hbad, if_neg hbad, ih]

theorem find?_index_of_perm_nodup (l l' : List StoredFileChunk) (hperm : l'.Perm l)
    (hnd : (l.map (fun c => c.index)).Nodup) (c : StoredFileChunk) (hc : c ∈ l)
    (i : ℕ) (hci : c.index = i) :
    l'.find? (fun d => decide (d.index = i)) = some c := by
  have hc' : c ∈ l' := hperm.mem_iff.mpr hc
  have hsome : (l'.find? (fun d => decide (d.index = i))).isSome := by
    rw [List.find?_isSome]
    exact ⟨c, hc', by simp [hci]⟩
  obtain ⟨d, hd⟩ := Option.isSome_iff_exists.mp hsome
  have hdmem : d ∈ l := hperm.mem_iff.mp (List.mem_of_find?_eq_some hd)
  have hdi : d.index = i := by simpa using List.find?_some hd
  have hdc : d = c := List.inj_on_of_nodup_map hnd hdmem hc (by rw [hdi, hci])
  rw [hd, hdc]

/-- Claim C10: when a session has no ChunkRecord at index 0, the nominal
chunk size inferred by `verifySessionAgainstFile` stays 0, so every
fetched chunk is compared against the initial bytes of the reference
file at offset 0: a stored chunk at index `i` is outside the returned
bad-index list exactly when its remote bytes equal the file prefix of
the same length — a chunk whose bytes match the file at its own correct
offset but differ from that prefix is still reported bad. -/
theorem c10_verify_offset_zero (fetcher : String → Option (List ℕ))
    (session : Session) (file : List ℕ)
    (hnd : (session.chunks.map (fun c => c.index)).Nodup)
    (h0 : ∀ c ∈ session.chunks, ¬ c.index = 0)
    (i : ℕ) (hi : i < session.totalChunks)
    (c : StoredFileChunk) (hc : c ∈ session.chunks) (hci : c.index = i)
    (b : List ℕ) (hf : fetcher c.url = some b) :
    (i ∈ verifySessionAgainstFile fetcher session file ↔
      ¬ (b.length ≤ file.length ∧ b = file.take b.length)) := by
  unfold verifySessionAgainstFile
  have hperm : (session.chunks.mergeSort (fun a b => a.index ≤ b.index)).Perm
      session.chunks := List.mergeSort_perm session.chunks _
  have hne : ¬ (session.chunks.mergeSort (fun a b => a.index ≤ b.index)).length = 0 := by
    rw [List.length_mergeSort]
    intro hlen
    rw [List.length_eq_zero] at hlen
    rw [hlen] at hc
    exact List.not_mem_nil c hc
  rw [if_neg hne]
  have h0' : ∀ d ∈ session.chunks.mergeSort (fun a b => a.index ≤ b.index),
      ¬ d.index = 0 := fun d hd => h0 d (hperm.mem_iff.mp hd)
  rw [verifyFrom_no_zero_chunk fetcher _ file h0']
  rw [List.mem_filter]
  have hfind := find?_index_of_perm_nodup session.chunks
    (session.chunks.mergeSort (fun a b => a.index ≤ b.index)) hperm hnd c hc i hci
  unfold badAtOffsetZero
  rw [hfind]
  simp only [hf, List.mem_range, hi, true_and, decide_eq_true_eq]

/-- Claim C10, witness: file `[0,1,2,3]` split in two chunks, record at
index 0 missing; the stored chunk at index 1 carries `[2,3]`, exactly
the file contents at its own offset 2, yet it is reported bad because it
is compared against the prefix `[0,1]`. -/
theorem c10_verify_witness :
    (((c10Session.chunks.map (fun c => c.index)).Nodup) ∧
     (∀ c ∈ c10Session.chunks, ¬ c.index = 0) ∧
     (1 : ℕ) < c10Session.totalChunks ∧
     c10Chunk ∈ c10Session.chunks ∧ c10Chunk.index = 1 ∧
     c10Fetcher c10Chunk.url = some [2, 3] ∧
     [2, 3] = [0, 1, 2, 3].drop 2) ∧
    (1 ∈ verifySessionAgainstFile c10Fetcher c10Session [0, 1, 2, 3] ↔
      ¬ (([2, 3] : List ℕ).length ≤ ([0, 1, 2, 3] : List ℕ).length ∧
        ([2, 3] : List ℕ) = ([0, 1, 2, 3] : List ℕ).take ([2, 3] : List ℕ).length)) :=
  ⟨⟨by decide, by decide, by decide, by decide, by decide, by decide, by decide⟩,
   c10_verify_offset_zero c10Fetcher c10Session [0, 1, 2, 3] (by decide) (by decide)
     1 (by decide) c10Chunk (by decide) (by decide) [2, 3] (by decide)⟩

theorem lookupSession_eq_none_iff (st : Storage) (k : ℕ) :
    lookupSession st k = none ↔ ∀ p ∈ st, ¬ p.1 = k := by
  unfold lookupSession
  rw [Option.map_eq_none']
  rw [List.find?_eq_none]
  constructor
  · intro h p hp
    simpa using h p hp
  · intro h p hp
    simpa using h p hp

theorem lookupSession_of_mem_nodup (st : Storage) (k : ℕ) (s : Session)
    (hnd : (st.map Prod.fst).Nodup) (hmem : (k, s) ∈ st) :
    lookupSession st k = some s := by
  induction st with
  | nil => cases hmem
  | cons p rest ih =>
    rw [List.map_cons, List.nodup_cons] at hnd
    rcases List.mem_cons.mp hmem with heq | hrest
    · subst heq
      unfold lookupSession
      rw [List.find?_cons_of_pos _ (by simp)]
      rfl
    · have hk : ¬ p.1 = k := by
        intro hpk
        apply hnd.1
        have hmm : (k, s).1 ∈ rest.map Prod.fst := List.mem_map_of_mem Prod.fst hrest
        rwa [hpk]
      unfold lookupSession
      rw [List.find?_cons_of_neg _ (by simpa using hk)]
      exact ih hnd.2 hrest

theorem length_le_of_nodup_bound (l : List StoredFileChunk) (t : ℕ)
    (hnd : (l.map (fun c => c.index)).Nodup) (hb : ∀ c ∈ l, c.index < t) :
    l.length ≤ t := by
  have h1 : (l.map (fun c => c.index)).toFinset.card =
      (l.map (fun c => c.index)).length := List.toFinset_card_of_nodup hnd
  have h2 : (l.map (fun c => c.index)).toFinset ⊆ Finset.range t := by
    intro x hx
    rw [List.mem_toFinset] at hx
    rw [Finset.mem_range]
    obtain ⟨c, hc, rfl⟩ := List.mem_map.mp hx
    exact hb c hc
  have h3 := Finset.card_le_card h2
  rw [h1, Finset.card_range, List.length_map] at h3
  exact h3

theorem sessionInv_removeIndices (s : Session) (newChunks : List StoredFileChunk)
    (hinv : SessionInv s) (hsub : newChunks.Sublist s.chunks)
    (hlt : newChunks.length < s.chunks.length) :
    SessionInv { s with chunks := newChunks, isComplete := false } := by
  obtain ⟨hnodup, hbound, _⟩ := hinv
  refine ⟨?_, ?_, ?_⟩
  · exact hnodup.sublist (hsub.map _)
  · intro c hc
    exact hbound c (hsub.mem hc)
  · have hle := length_le_of_nodup_bound s.chunks s.totalChunks hnodup hbound
    simp only [Bool.false_eq_true, false_iff]
    omega

theorem sessionInv_addChunkToSession (s : Session) (chunk : StoredFileChunk) (now : ℕ)
    (hinv : SessionInv s) (hidx : chunk.index < s.totalChunks) :
    SessionInv (addChunkToSession s chunk now) := by
  obtain ⟨hnodup, hbound, hcomp⟩ := hinv
  unfold addChunkToSession
  by_cases hdup : s.chunks.any (fun c => decide (c.index = chunk.index)) = true
  · rw [if_pos hdup]
    exact ⟨hnodup, hbound, hcomp⟩
  · rw [if_neg hdup]
    have hnotin : chunk.index ∉ s.chunks.map (fun c => c.index) := by
      intro hin
      obtain ⟨c, hc, hceq⟩ := List.mem_map.mp hin
      exact hdup (List.any_eq_true.mpr ⟨c, hc, by simp [hceq]⟩)
    refine ⟨?_, ?_, ?_⟩
    · rw [List.map_append]
      rw [List.nodup_append]
      exact ⟨hnodup, List.nodup_singleton _,
        fun a ha hb => hnotin (by rwa [List.mem_singleton.mp hb] at ha)⟩
    · intro c hc
      rcases List.mem_append.mp hc with h1 | h2
      · exact hbound c h1
      · rw [List.mem_singleton] at h2
        subst h2
        exact hidx
    · simp only [decide_eq_true_eq]

theorem removeChunkEntry_key (messageId : String) (p q : ℕ × Session)
    (h : removeChunkEntry messageId p = some q) : q.1 = p.1 := by
  unfold removeChunkEntry at h
  dsimp only at h
  split_ifs at h with h1 h2
  · cases h
    rfl
  · cases h
    rfl

theorem removeChunkEntry_sessionInv (messageId : String) (p q : ℕ × Session)
    (hinv : SessionInv p.2) (h : removeChunkEntry messageId p = some q) :
    SessionInv q.2 := by
  unfold removeChunkEntry at h
  dsimp only at h
  split_ifs at h with h1 h2
  · cases h
    exact hinv
  · cases h
    have hle := (List.filter_sublist
      (p := fun c => decide (c.messageId ≠ some messageId)) p.2.chunks).length_le
    exact sessionInv_removeIndices p.2 _ hinv (List.filter_sublist _) (by omega)

theorem removeIndexEntry_fst (sid idx : ℕ) (p : ℕ × Session) :
    (removeIndexEntry sid idx p).1 = p.1 := by
  unfold removeIndexEntry
  dsimp only
  split_ifs <;> rfl

theorem removeIndexEntry_sessionInv (sid idx : ℕ) (p : ℕ × Session)
    (hinv : SessionInv p.2) : SessionInv (removeIndexEntry sid idx p).2 := by
  unfold removeIndexEntry
  dsimp only
  split_ifs with h1 h2
  · exact hinv
  · have hle := (List.filter_sublist
      (p := fun c => decide (c.index ≠ idx)) p.2.chunks).length_le
    exact sessionInv_removeIndices p.2 _ hinv (List.filter_sublist _) (by omega)
  · exact hinv

theorem map_fst_filterMap_sublist (f : ℕ × Session → Option (ℕ × Session))
    (hf : ∀ p q, f p = some q → q.1 = p.1) (st : Storage) :
    ((st.filterMap f).map Prod.fst).Sublist (st.map Prod.fst) := by
  induction st with
  | nil => simp
  | cons p rest ih =>
    rw [List.filterMap_cons]
    cases hfp : f p with
    | none =>
      rw [List.map_cons]
      exact ih.trans (List.sublist_cons_self _ _)
    | some q =>
      rw [List.map_cons, List.map_cons, hf p q hfp]
      exact ih.cons₂ p.1

theorem storageInv_cleanOldChunks (st : Storage) (now : ℕ) (h : StorageInv st) :
    StorageInv (cleanOldChunks st now) := by
  obtain ⟨hnd, hses⟩ := h
  constructor
  · exact hnd.sublist ((List.filter_sublist st).map Prod.fst)
  · intro p hp
    exact hses p (List.mem_of_mem_filter hp)

theorem storageInv_removeChunkByIndex (st : Storage) (sid idx : ℕ) (h : StorageInv st) :
    StorageInv (removeChunkByIndex st sid idx) := by
  obtain ⟨hnd, hses⟩ := h
  unfold removeChunkByIndex
  cases lookupSession st sid with
  | none => exact ⟨hnd, hses⟩
  | some s0 =>
    constructor
    · have hkeys : (st.map (removeIndexEntry sid idx)).map Prod.fst =
          st.map Prod.fst := by
        rw [List.map_map]
        apply List.map_congr_left
        intro p _
        exact removeIndexEntry_fst sid idx p
      rw [hkeys]
      exact hnd
    · intro q hq
      obtain ⟨p, hp, rfl⟩ := List.mem_map.mp hq
      exact removeIndexEntry_sessionInv sid idx p (hses p hp)

theorem storageInv_removeChunk (st : Storage) (messageId : String) (h : StorageInv st) :
    StorageInv (removeChunk st messageId) := by
  obtain ⟨hnd, hses⟩ := h
  constructor
  · exact hnd.sublist
      (map_fst_filterMap_sublist (removeChunkEntry messageId)
        (removeChunkEntry_key messageId) st)
  · intro q hq
    obtain ⟨p, hp, hfp⟩ := List.mem_filterMap.mp hq
    exact removeChunkEntry_sessionInv messageId p q (hses p hp) hfp

theorem addChunk_entry_fst (key : ℕ) (chunk : StoredFileChunk) (now : ℕ) :
    (Prod.fst ∘ fun p : ℕ × Session =>
      if p.1 = key then (p.1, addChunkToSession p.2 chunk now) else p) = Prod.fst := by
  funext p
  by_cases hps : p.1 = key
  · simp [Function.comp, hps]
  · simp [Function.comp, hps]

theorem storageInv_addChunk (st : Storage) (chunk : StoredFileChunk)
    (channelId : String) (uploader : UploaderInfo) (now : ℕ)
    (h : StorageInv st) (hidx : chunk.index < chunk.total)
    (hold : ∀ s, lookupSession st chunk.timestamp = some s →
      chunk.index < s.totalChunks) :
    StorageInv (addChunk st chunk channelId uploader now) := by
  obtain ⟨hnd, hses⟩ := h
  unfold addChunk
  dsimp only
  by_cases hlook : lookupSession st chunk.timestamp = none
  · rw [if_pos hlook]
    have hkeynot : ∀ p ∈ st, ¬ p.1 = chunk.timestamp :=
      (lookupSession_eq_none_iff st chunk.timestamp).mp hlook
    have hnd' : ((st ++ [(chunk.timestamp,
        freshSession chunk channelId uploader now)]).map Prod.fst).Nodup := by
      rw [List.map_append]
      rw [List.nodup_append]
      refine ⟨hnd, by simp, ?_⟩
      intro a ha hb
      simp only [List.map_cons, List.map_nil, List.mem_singleton] at hb
      obtain ⟨p, hp, hpa⟩ := List.mem_map.mp ha
      exact hkeynot p hp (by rw [hpa, hb])
    have hses' : ∀ p ∈ st ++ [(chunk.timestamp,
        freshSession chunk channelId uploader now)], SessionInv p.2 := by
      intro p hp
      rcases List.mem_append.mp hp with h1 | h2
      · exact hses p h1
      · rw [List.mem_singleton] at h2
        subst h2
        refine ⟨by simp [freshSession], by simp [freshSession], ?_⟩
        unfold freshSession
        simp only [Bool.false_eq_true, false_iff, List.length_nil]
        omega
    constructor
    · rw [List.map_map, addChunk_entry_fst]
      exact hnd'
    · intro q hq
      obtain ⟨p, hp, rfl⟩ := List.mem_map.mp hq
      by_cases hps : p.1 = chunk.timestamp
      · rw [if_pos hps]
        rcases List.mem_append.mp hp with hmem1 | hmem2
        · exact absurd hps (hkeynot p hmem1)
        · rw [List.mem_singleton] at hmem2
          subst hmem2
          refine sessionInv_addChunkToSession _ chunk now (hses' _ hp) ?_
          exact hidx
      · rw [if_neg hps]
        exact hses' p hp
  · rw [if_neg hlook]
    constructor
    · rw [List.map_map, addChunk_entry_fst]
      exact hnd
    · intro q hq
      obtain ⟨p, hp, rfl⟩ := List.mem_map.mp hq
      by_cases hps : p.1 = chunk.timestamp
      · rw [if_pos hps]
        have hplook : lookupSession st p.1 = some p.2 :=
          lookupSession_of_mem_nodup st p.1 p.2 hnd (by simpa using hp)
        rw [hps] at hplook
        refine sessionInv_addChunkToSession _ chunk now (hses p hp) ?_
        exact hold p.2 hplook
      · rw [if_neg hps]
        exact hses p hp

theorem storageInv_reachable (st : Storage) (h : Reachable st) : StorageInv st := by
  induction h with
  | empty => exact ⟨List.nodup_nil, fun p hp => absurd hp (List.not_mem_nil p)⟩
  | add chunk channelId uploader now hre hidx hold ih =>
    exact storageInv_addChunk _ chunk channelId uploader now ih hidx hold
  | remove messageId hre ih => exact storageInv_removeChunk _ messageId ih
  | removeByIndex sid idx hre ih => exact storageInv_removeChunkByIndex _ sid idx ih
  | sweep now hre ih => exact storageInv_cleanOldChunks _ now ih

/-- Claim C2: for every session of a registry state reached by any
sequence of `addChunk`, `removeChunk`, `removeChunkByIndex` and sweep
operations (with records satisfying the `index < total` data-model
invariant), `isComplete` equals (number of distinct stored chunk indices
= `totalChunks`). -/
theorem c2_isComplete_iff_distinct (st : Storage) (h : Reachable st)
    (k : ℕ) (s : Session) (hmem : (k, s) ∈ st) :
    s.isComplete = true ↔
      ((s.chunks.map (fun c => c.index)).dedup).length = s.totalChunks := by
  obtain ⟨hnd, hses⟩ := storageInv_reachable st h
  obtain ⟨hnodup, hbound, hcomp⟩ := hses (k, s) hmem
  rw [List.Nodup.dedup hnodup, List.length_map]
  exact hcomp

/-- Claim C3: inserting a ChunkRecord whose `(sessionId, index)` is
already present leaves the whole registry — in particular the chunk
list, `lastUpdated` and `isComplete` of that session — unchanged. -/
theorem c3_addChunk_idempotent (st : Storage) (h : Reachable st)
    (chunk : StoredFileChunk) (channelId : String) (uploader : UploaderInfo) (now : ℕ)
    (s : Session) (hs : lookupSession st chunk.timestamp = some s)
    (hdup : ∃ c ∈ s.chunks, c.index = chunk.index) :
    addChunk st chunk channelId uploader now = st := by
  obtain ⟨hnd, _⟩ := storageInv_reachable st h
  unfold addChunk
  dsimp only
  rw [if_neg (by rw [hs]; exact fun hc => Option.noConfusion hc)]
  have hcongr : ∀ p ∈ st, (if p.1 = chunk.timestamp
      then (p.1, addChunkToSession p.2 chunk now) else p) = p := by
    intro p hp
    by_cases hpk : p.1 = chunk.timestamp
    · rw [if_pos hpk]
      have hl : lookupSession st p.1 = some p.2 :=
        lookupSession_of_mem_nodup st p.1 p.2 hnd (by simpa using hp)
      rw [hpk, hs] at hl
      have hps : p.2 = s := by
        injection hl.symm
      have hnoop : addChunkToSession p.2 chunk now = p.2 := by
        rw [hps]
        unfold addChunkToSession
        rw [if_pos ?_]
        obtain ⟨c, hc, hceq⟩ := hdup
        exact List.any_eq_true.mpr ⟨c, hc, by simp [hceq]⟩
      rw [hnoop]
    · rw [if_neg hpk]
  rw [List.map_congr_left hcongr]
  exact List.map_id' st

/-- Claim C2, witness: the registry state reached by one `addChunk` from
the empty storage satisfies the completeness equivalence at its single
session. -/
theorem c2_isComplete_witness :
    Reachable c2Storage ∧ ((7, c2Session) ∈ c2Storage) ∧
    (c2Session.isComplete = true ↔
      ((c2Session.chunks.map (fun c => c.index)).dedup).length =
        c2Session.totalChunks) :=
  ⟨Reachable.add c2Chunk "chan" c2Uploader 5 Reachable.empty (by decide)
      (fun s hs => by simp [lookupSession] at hs),
   by decide,
   c2_isComplete_iff_distinct c2Storage
     (Reachable.add c2Chunk "chan" c2Uploader 5 Reachable.empty (by decide)
       (fun s hs => by simp [lookupSession] at hs))
     7 c2Session (by decide)⟩

/-- Claim C3, witness: re-inserting the chunk already stored under
`(sessionId 7, index 0)` leaves the registry literally unchanged. -/
theorem c3_addChunk_idempotent_witness :
    Reachable c2Storage ∧ lookupSession c2Storage 7 = some c2Session ∧
    (∃ c ∈ c2Session.chunks, c.index = c2Chunk.index) ∧
    addChunk c2Storage c2Chunk "other" ⟨"x", "y"⟩ 99 = c2Storage :=
  ⟨Reachable.add c2Chunk "chan" c2Uploader 5 Reachable.empty (by decide)
      (fun s hs => by simp [lookupSession] at hs),
   by decide, by decide,
   c3_addChunk_idempotent c2Storage
     (Reachable.add c2Chunk "chan" c2Uploader 5 Reachable.empty (by decide)
       (fun s hs => by simp [lookupSession] at hs))
     c2Chunk "other" ⟨"x", "y"⟩ 99 c2Session (by decide) (by decide)⟩

theorem fetchPhase_aborted_start (fetcher : String → Option (List ℕ))
    (c : StoredFileChunk) (rest : List StoredFileChunk) (dl : DlState)
    (ha : dl.isPaused = true ∨ dl.aborted = true) :
    fetchPhase fetcher (c :: rest) dl = ({ dl with status := .paused }, true) := by
  unfold fetchPhase
  rw [if_pos ?_]
  rcases ha with h | h <;> simp [h]

theorem fetchPhase_failure (fetcher : String → Option (List ℕ))
    (l : List StoredFileChunk) (dl : DlState)
    (hp : dl.isPaused = false) (ha : dl.aborted = false)
    (hfail : ∃ c ∈ l, fetcher c.url = none) :
    (fetchPhase fetcher l dl).1.aborted = true ∧
    ((fetchPhase fetcher l dl).1.errorMsg).isSome = true ∧
    (fetchPhase fetcher l dl).1.fileBlob = dl.fileBlob ∧
    (fetchPhase fetcher l dl).1.checksumResult = dl.checksumResult ∧
    ((fetchPhase fetcher l dl).2 = true ∧ (fetchPhase fetcher l dl).1.status = .paused ∨
     (fetchPhase fetcher l dl).2 = false ∧
       (fetchPhase fetcher l dl).1.status = dl.status) := by
  induction l generalizing dl with
  | nil =>
    obtain ⟨c, hc, _⟩ := hfail
    cases hc
  | cons c rest ih =>
    unfold fetchPhase
    rw [if_neg (by simp [hp, ha])]
    cases hfc : fetcher c.url with
    | none =>
      cases rest with
      | nil => simp [fetchPhase]
      | cons d ds =>
        rw [fetchPhase_aborted_start fetcher d ds _ (Or.inr rfl)]
        simp
    | some bytes =>
      have hfail2 : ∃ c2 ∈ rest, fetcher c2.url = none := by
        obtain ⟨c2, hc2, hf2⟩ := hfail
        rcases List.mem_cons.mp hc2 with heq | hr
        · subst heq
          rw [hfc] at hf2
          cases hf2
        · exact ⟨c2, hr, hf2⟩
      have hrec := ih (recordChunk dl c.index bytes) (by simp [recordChunk, hp])
        (by simp [recordChunk, ha]) hfail2
      simpa [recordChunk] using hrec

/-- Claim C4, counterexample: a two-chunk download whose first fetch
returns no data ends with status `paused` — not `error` — although the
abort flag is set, the error message recorded and no merge attempted. -/
theorem c4_fetch_failure_counterexample :
    (downloadLoop c4Fetcher c4Hash c4Session dlInit).status = DStatus.paused ∧
    (downloadLoop c4Fetcher c4Hash c4Session dlInit).status ≠ DStatus.error ∧
    (downloadLoop c4Fetcher c4Hash c4Session dlInit).aborted = true ∧
    (downloadLoop c4Fetcher c4Hash c4Session dlInit).fileBlob = none := by
  have hval : downloadLoop c4Fetcher c4Hash c4Session dlInit =
      { blobs := [], chunksDownloaded := [], bytesDownloaded := 0,
        status := .paused, errorMsg := some "Chunk 0 failed", aborted := true,
        isPaused := false, fileBlob := none, checksumResult := none } := by
    unfold downloadLoop pendingChunks
    rw [List.mergeSort_of_sorted (by decide)]
    decide
  rw [hval]
  refine ⟨rfl, by decide, rfl, rfl⟩

/-- Claim C4, amended: if any pending chunk fetch returns no data during
the download loop then the whole download is cooperatively cancelled
(the controller is aborted), no merge is attempted (the result blob and
checksum result stay empty), the error is recorded in the error message
field, and the status becomes `paused` — or remains `downloading` when
the failing worker was the last pending one — rather than `error`. -/
theorem c4_fetch_failure_behaviour (fetcher : String → Option (List ℕ))
    (hash : List ℕ → String) (session : Session) (dl0 : DlState)
    (hp : dl0.isPaused = false) (ha : dl0.aborted = false)
    (hst : dl0.status = DStatus.downloading) (hfb : dl0.fileBlob = none)
    (hcr : dl0.checksumResult = none)
    (hfail : ∃ c ∈ pendingChunks session dl0, fetcher c.url = none) :
    (downloadLoop fetcher hash session dl0).aborted = true ∧
    (downloadLoop fetcher hash session dl0).fileBlob = none ∧
    (downloadLoop fetcher hash session dl0).checksumResult = none ∧
    ((downloadLoop fetcher hash session dl0).errorMsg).isSome = true ∧
    ((downloadLoop fetcher hash session dl0).status = DStatus.paused ∨
     (downloadLoop fetcher hash session dl0).status = DStatus.downloading) := by
  obtain ⟨h1, h2, h3, h4, h5⟩ :=
    fetchPhase_failure fetcher (pendingChunks session dl0) dl0 hp ha hfail
  unfold downloadLoop
  cases hfp : fetchPhase fetcher (pendingChunks session dl0) dl0 with
  | mk dl early =>
    rw [hfp] at h1 h2 h3 h4 h5
    cases early
    · rcases h5 with ⟨habs, _⟩ | ⟨_, hstat⟩
      · cases habs
      · simp only []
        rw [if_pos h1]
        exact ⟨h1, h3.trans hfb, by simpa [hcr] using h4,
          h2, Or.inr (by rw [hstat, hst])⟩
    · rcases h5 with ⟨_, hstat⟩ | ⟨habs, _⟩
      · simp only []
        exact ⟨h1, h3.trans hfb, by simpa [hcr] using h4, h2, Or.inl hstat⟩
      · cases habs

/-- Claim C4, witness for the amended theorem at the concrete failing
download. -/
theorem c4_fetch_failure_witness :
    (dlInit.isPaused = false ∧ dlInit.aborted = false ∧
     dlInit.status = DStatus.downloading ∧ dlInit.fileBlob = none ∧
     dlInit.checksumResult = none ∧
     (∃ c ∈ pendingChunks c4Session dlInit, c4Fetcher c.url = none)) ∧
    ((downloadLoop c4Fetcher c4Hash c4Session dlInit).aborted = true ∧
     (downloadLoop c4Fetcher c4Hash c4Session dlInit).fileBlob = none ∧
     (downloadLoop c4Fetcher c4Hash c4Session dlInit).checksumResult = none ∧
     ((downloadLoop c4Fetcher c4Hash c4Session dlInit).errorMsg).isSome = true ∧
     ((downloadLoop c4Fetcher c4Hash c4Session dlInit).status = DStatus.paused ∨
      (downloadLoop c4Fetcher c4Hash c4Session dlInit).status =
        DStatus.downloading)) := by
  have hpend : pendingChunks c4Session dlInit = [c4Chunk0, c4Chunk1] := by
    unfold pendingChunks
    rw [List.mergeSort_of_sorted (by decide)]
    decide
  have hfail : ∃ c ∈ pendingChunks c4Session dlInit, c4Fetcher c.url = none := by
    rw [hpend]
    exact ⟨c4Chunk0, by decide, by decide⟩
  exact ⟨⟨rfl, rfl, rfl, rfl, rfl, hfail⟩,
    c4_fetch_failure_behaviour c4Fetcher c4Hash c4Session dlInit rfl rfl rfl rfl rfl hfail⟩

end FileSplitter
